import Mathlib

/-!
# Verification of the competitor_ai retrieval pipeline

Shallow embedding of the chunking, company-tagging, ingestion and
retrieval-fusion code of the repository (src/chunker.py,
src/company_tagging_chunker.py, src/metadata_chunker.py,
src/ingest_internal_doc.py, src/search_engine.py).

Python strings are modelled as `List Char` (ASCII-faithful); Python
functions that can raise are modelled with `Except`/`Option`; the
external vector index (an out-of-scope collaborator, spec section 6)
is modelled as a keyed association list with upsert semantics.
-/

set_option maxRecDepth 4000

namespace CompetitorAI

/-! ## Python string primitives over `List Char` -/

/-- Python whitespace for `str.strip` / `str.split` / `\s` (ASCII range). -/
def pyIsSpace (c : Char) : Bool :=
  c = ' ' || c = '\t' || c = '\n' || c = '\r' || c = '\x0b' || c = '\x0c'

/-- Drop trailing characters satisfying `pyIsSpace` (right half of `str.strip`). -/
def dropTrailing : List Char → List Char
  | [] => []
  | c :: rest =>
    match dropTrailing rest with
    | [] => if pyIsSpace c then [] else [c]
    | r => c :: r

/-- Python `str.strip()`: drop leading and trailing whitespace. -/
def pyStrip (l : List Char) : List Char :=
  dropTrailing (l.dropWhile pyIsSpace)

/-- Worker for `pyWords`: `cur` is the reversed current word. -/
def wordsAux : List Char → List Char → List (List Char)
  | cur, [] => if cur = [] then [] else [cur.reverse]
  | cur, c :: rest =>
    if pyIsSpace c then
      if cur = [] then wordsAux [] rest else cur.reverse :: wordsAux [] rest
    else wordsAux (c :: cur) rest

/-- Python `str.split()` with no argument: maximal non-whitespace runs. -/
def pyWords (l : List Char) : List (List Char) := wordsAux [] l

/-- Worker for `splitOnChar`; `cur` is the reversed current piece. -/
def splitOnCharAux (sep : Char) : List Char → List Char → List (List Char)
  | cur, [] => [cur.reverse]
  | cur, c :: rest =>
    if c = sep then cur.reverse :: splitOnCharAux sep [] rest
    else splitOnCharAux sep (c :: cur) rest

/-- Python `str.split(sep)` for a single-character separator (keeps empty pieces). -/
def splitOnChar (sep : Char) (l : List Char) : List (List Char) :=
  splitOnCharAux sep [] l

/-- Python `sep.join(pieces)` for a single-character separator. -/
def joinWith (sep : Char) : List (List Char) → List Char
  | [] => []
  | [x] => x
  | x :: y :: rest => x ++ sep :: joinWith sep (y :: rest)

/-- Worker for `collapseRuns`: the flag records whether the previous
character was whitespace (in which case the run is already replaced). -/
def collapseAux (rep : Char) : Bool → List Char → List Char
  | _, [] => []
  | prevWs, c :: rest =>
    if pyIsSpace c then
      if prevWs then collapseAux rep true rest
      else rep :: collapseAux rep true rest
    else c :: collapseAux rep false rest

/-- Python `re.sub(r'\s+', rep, l)` for a one-character replacement:
every maximal whitespace run becomes a single `rep`. -/
def collapseRuns (rep : Char) (l : List Char) : List Char :=
  collapseAux rep false l

/-- First character (if any) is not whitespace. -/
def headNS : List Char → Bool
  | [] => true
  | c :: _ => !pyIsSpace c

/-- Last character (if any) is not whitespace. -/
def lastNS : List Char → Bool
  | [] => true
  | [c] => !pyIsSpace c
  | _ :: d :: rest => lastNS (d :: rest)

/-- Every whitespace character is a plain space. -/
def spacesOk (l : List Char) : Bool :=
  l.all (fun c => !pyIsSpace c || c == ' ')

/-- No two adjacent whitespace characters. -/
def noDbl : List Char → Bool
  | c :: d :: rest => !(pyIsSpace c && pyIsSpace d) && noDbl (d :: rest)
  | _ => true

/-- Boolean check that `p` is a leading segment of `l`. -/
def leadsWith : List Char → List Char → Bool
  | [], _ => true
  | _ :: _, [] => false
  | p :: ps, c :: cs => p == c && leadsWith ps cs

/-- Python `pat in l` substring test. -/
def isSubstr : List Char → List Char → Bool
  | pat, [] => pat.isEmpty
  | pat, c :: rest => leadsWith pat (c :: rest) || isSubstr pat rest

/-- Python `str.lower()` (ASCII). -/
def toLowerL (l : List Char) : List Char := l.map Char.toLower

/-- Python `str.isdigit()` on an ASCII string: non-empty and all digits. -/
def pyIsDigit (l : List Char) : Bool := !l.isEmpty && l.all Char.isDigit

/-- Python `int(s)` on a pure-digit string. -/
def digitsToNat (l : List Char) : Nat :=
  l.foldl (fun n c => n * 10 + (c.toNat - 48)) 0

/-- Python `str(n)` for a natural number, as characters. -/
def natStr (n : Nat) : List Char := Nat.toDigits 10 n

/-! ## Chunker (src/chunker.py) -/

/-- The sentence-boundary heuristic `(?<=[.!?])` lookbehind class. -/
def endPunct (c : Char) : Bool := c = '.' || c = '!' || c = '?'

/-- The `(?=[A-Z])` lookahead class. -/
def isUpperAZ (c : Char) : Bool := 'A' ≤ c && c ≤ 'Z'

/-- Does the lookahead of the sentence-split regex accept `rest` after a
whitespace run starting at the current character? -/
def sentLookahead (rest : List Char) : Bool :=
  match rest.dropWhile pyIsSpace with
  | [] => false
  | u :: _ => isUpperAZ u

/-- Lookbehind of the sentence-split regex: the last character already
consumed (head of the reversed current sentence) is `.`/`!`/`?`. -/
def lookbehindPunct : List Char → Bool
  | [] => false
  | p :: _ => endPunct p

/-- Worker for `splitSentences`, fuel-indexed (`fuel ≥ rest.length` makes it
exact).  `cur` is the reversed current sentence.  Embeds
`re.split(r'(?<=[.!?])\s+(?=[A-Z])', text)`: a maximal whitespace run
preceded by `.`/`!`/`?` and followed by an uppercase letter is a split
point and is removed. -/
def sentAux : Nat → List Char → List Char → List (List Char)
  | _, cur, [] => [cur.reverse]
  | 0, cur, rest => [cur.reverse ++ rest]
  | fuel + 1, cur, c :: rest =>
    if pyIsSpace c && lookbehindPunct cur && sentLookahead rest then
      cur.reverse :: sentAux fuel [] (rest.dropWhile pyIsSpace)
    else sentAux fuel (c :: cur) rest

/-- Embeds `re.split(r'(?<=[.!?])\s+(?=[A-Z])', text)` from `_chunk_by_sentences`. -/
def splitSentences (t : List Char) : List (List Char) :=
  sentAux t.length [] t

/-- Overlap seeding of `_chunk_by_sentences`: walk the closed chunk's
sentences from the end and take whole sentences while their cumulative
word count stays within `overlap`; returns the seed and its word count. -/
def overlapSeed (overlap : Nat) : List (List Char) → Nat → List (List Char) →
    List (List Char) × Nat
  | [], cnt, acc => (acc, cnt)
  | s :: rest, cnt, acc =>
    let sw := (pyWords s).length
    if cnt + sw ≤ overlap then overlapSeed overlap rest (cnt + sw) (s :: acc)
    else (acc, cnt)

/-- The sentence-accumulation loop of `_chunk_by_sentences`.
State: already-closed chunks, current chunk (a list of sentences, in
order), current word count. -/
def sentLoop (chunkSize overlap : Nat) :
    List (List Char) → List (List Char) → List (List Char) → Nat →
    List (List Char)
  | chunks, cur, [], _ =>
    if cur = [] then chunks else chunks ++ [joinWith ' ' cur]
  | chunks, cur, s :: rest, cw =>
    let s' := pyStrip s
    if s' = [] then sentLoop chunkSize overlap chunks cur rest cw
    else
      let sw := (pyWords s').length
      if cw + sw > chunkSize ∧ cur ≠ [] then
        let chunks' := chunks ++ [joinWith ' ' cur]
        let (seed, seedCount) := overlapSeed overlap cur.reverse 0 []
        sentLoop chunkSize overlap chunks' (seed ++ [s']) rest (seedCount + sw)
      else sentLoop chunkSize overlap chunks (cur ++ [s']) rest (cw + sw)

/-- Embeds `_chunk_by_sentences(text, chunk_size, overlap)` from src/chunker.py. -/
def chunk_by_sentences (t : List Char) (chunkSize overlap : Nat) :
    List (List Char) :=
  let sentences := splitSentences t
  if sentences = [] then [t]
  else sentLoop chunkSize overlap [] [] sentences 0

/-- Python `range(0, stop, step)` for a positive step. -/
def pyRange3 (stop step : Nat) : List Nat :=
  (List.range ((stop + step - 1) / step)).map (fun k => k * step)

/-- Embeds `_chunk_by_words(text, chunk_size, overlap)` from src/chunker.py.
`range(0, len(words), chunk_size - overlap)` raises `ValueError` when the
step is zero and is empty when the step is negative (Python semantics),
hence the `Except` result. -/
def chunk_by_words (t : List Char) (chunkSize overlap : Nat) :
    Except (List Char) (List (List Char)) :=
  let ws := pyWords t
  if (chunkSize : Int) - overlap = 0 then
    .error "ValueError: range() arg 3 must not be zero".data
  else if (chunkSize : Int) - overlap < 0 then .ok []
  else
    .ok (((pyRange3 ws.length (chunkSize - overlap)).map
            (fun i => joinWith ' ' ((ws.drop i).take chunkSize))).filter
          (fun ch => pyStrip ch ≠ []))

/-- Embeds `chunk_text_smart(text, chunk_size, overlap, preserve_sentences)` from
src/chunker.py: empty/whitespace-only text gives `[]`, otherwise the
stripped text has every whitespace run collapsed to a single space and is
chunked by sentences or by words. -/
def chunk_text_smart (text : List Char) (chunkSize overlap : Nat)
    (preserveSentences : Bool) : Except (List Char) (List (List Char)) :=
  if pyStrip text = [] then .ok []
  else
    let t := collapseRuns ' ' (pyStrip text)
    if preserveSentences then .ok (chunk_by_sentences t chunkSize overlap)
    else chunk_by_words t chunkSize overlap

/-! ## Company tagging (src/company_tagging_chunker.py, src/metadata_chunker.py) -/

/-- Match of `re.match(r'^Company_Names:\s*(.+)$', line.strip(), re.IGNORECASE)`:
`some payload` when the stripped line is the case-insensitive header
`Company_Names:` followed by optional whitespace and at least one
character; the payload is the captured group. -/
def companyPayload (line : List Char) : Option (List Char) :=
  let s := pyStrip line
  if leadsWith "company_names:".data (toLowerL s) then
    let rest := (s.drop 14).dropWhile pyIsSpace
    if rest = [] then none else some rest
  else none

/-- Embeds `[c.strip() for c in company_string.split(',') if c.strip()]`. -/
def companiesOf (payload : List Char) : List (List Char) :=
  ((splitOnChar ',' payload).map pyStrip).filter (fun c => c ≠ [])

/-- Embeds `parse_company_tags(text)` from src/company_tagging_chunker.py.
Matching lines are removed from the text; their comma-separated values go
into `company_tags`, a Python `set` — modelled as a `Finset` since the
set is unordered and deduplicating. -/
def parse_company_tags (text : List Char) : List Char × Finset (List Char) :=
  let lines := splitOnChar '\n' text
  (joinWith '\n' (lines.filter (fun ln => (companyPayload ln).isNone)),
   lines.foldl
     (fun s ln =>
       match companyPayload ln with
       | none => s
       | some p => s ∪ (companiesOf p).toFinset) ∅)

/-- The `\w` word character (ASCII): letter, digit or underscore. -/
def isWordChar (c : Char) : Bool :=
  ('a' ≤ c && c ≤ 'z') || ('A' ≤ c && c ≤ 'Z') || ('0' ≤ c && c ≤ '9') || c = '_'

/-- Embeds `normalize_company_name(name)` from src/company_tagging_chunker.py:
lowercase, drop characters that are neither word characters nor
whitespace, strip, then replace each whitespace run by `_`. -/
def normalize_company_name (name : List Char) : List Char :=
  let cleaned := (toLowerL name).filter (fun c => isWordChar c || pyIsSpace c)
  collapseRuns '_' (pyStrip cleaned)

/-- Chunk metadata dictionary (conditional keys as `Option`s). -/
structure ChunkMeta where
  source : List Char
  chunk_index : Nat
  total_chunks : Nat
  chunk_word_count : Nat
  primary_company : Option (List Char)
  all_companies : Option (List (List Char))
  company_normalized : Option (List Char)
  company_aliases : Option (List (List Char))
  content_type : List Char
  deriving DecidableEq

/-- Keyword lists of the content-type detection in
`chunk_text_with_company_context` / `CompanyChunker.chunk`. -/
def pricingKeywords : List (List Char) :=
  ["price".data, "pricing".data, "cost".data, "license".data]

def featureKeywords : List (List Char) :=
  ["feature".data, "capability".data, "functionality".data]

def competitiveKeywords : List (List Char) :=
  ["competitor".data, "comparison".data, "vs".data, "versus".data]

/-- Content-type detection on a chunk (first matching category wins). -/
def baseContentType (chunk : List Char) : List Char :=
  let lower := toLowerL chunk
  if pricingKeywords.any (fun k => isSubstr k lower) then "pricing".data
  else if featureKeywords.any (fun k => isSubstr k lower) then "features".data
  else if competitiveKeywords.any (fun k => isSubstr k lower) then "competitive".data
  else "general".data

/-- Embeds `chunk_text_with_company_context(text, filename, chunk_size, overlap)`
from src/company_tagging_chunker.py (the same logic is duplicated as
`CompanyChunker.chunk` in src/metadata_chunker.py).  `listOf` models
Python's `list(company_tags)`: the iteration order of a `set` is
unspecified, so the enumeration is a parameter; theorems assume only that
it enumerates the set without duplicates. -/
def chunk_text_with_company_context
    (listOf : Finset (List Char) → List (List Char))
    (text fname : List Char) (chunkSize overlap : Nat) :
    List (List Char × ChunkMeta) :=
  let cleaned := (parse_company_tags text).1
  let tags := (parse_company_tags text).2
  if pyStrip cleaned = [] then []
  else
    match chunk_text_smart cleaned chunkSize overlap true with
    | .error _ => []
    | .ok chunks =>
      let allCompanies := listOf tags
      let primary : Option (List Char) :=
        if tags = ∅ then none else some (allCompanies.headD [])
      chunks.enum.map (fun (i, chunk) =>
        let base := baseContentType chunk
        (chunk,
         { source := fname
           chunk_index := i
           total_chunks := chunks.length
           chunk_word_count := (pyWords chunk).length
           primary_company := primary
           all_companies := if tags = ∅ then none else some allCompanies
           company_normalized := primary.map normalize_company_name
           company_aliases :=
             if tags = ∅ then none
             else some (allCompanies.map normalize_company_name)
           content_type :=
             match primary with
             | none => base
             | some p =>
               if p = [] then base else base ++ '_' :: normalize_company_name p }))

/-! ## Retrieval engine and reranker (src/search_engine.py) -/

/-- The fixed boilerplate phrase set of `filter_chunk_quality`. -/
def boilerplateSignals : List (List Char) :=
  ["terms and conditions".data, "privacy policy".data, "copyright".data,
   "all rights reserved".data, "disclaimer".data, "agreement".data,
   "legal notice".data, "cookie policy".data]

/-- Is a chunk kept by the quality filter: at least `minWords` words and
no boilerplate phrase as a substring of its lowercase form. -/
def chunkQualityOk (minWords : Nat) (chunk : List Char) : Bool :=
  minWords ≤ (pyWords chunk).length &&
    !(boilerplateSignals.any (fun s => isSubstr s (toLowerL chunk)))

/-- Embeds `filter_chunk_quality(chunks, min_words=50)` from src/search_engine.py,
written as the source's accumulate-if loop. -/
def filter_chunk_quality (chunks : List (List Char)) (minWords : Nat := 50) :
    List (List Char) :=
  chunks.foldl
    (fun acc chunk => if chunkQualityOk minWords chunk then acc ++ [chunk] else acc)
    []

/-- Index parsing of `llm_rerank_chunks`:
`[int(x.strip()) for x in response.split(',') if x.strip().isdigit()]`
then `[i for i in indices if 0 <= i < n][:top_k]`. -/
def rerankIndices (response : List Char) (n topK : Nat) : List Nat :=
  (((((splitOnChar ',' response).map pyStrip).filter pyIsDigit).map
      digitsToNat).filter (fun i => i < n)).take topK

/-- Embeds `llm_rerank_chunks(question, chunks, top_k)` from src/search_engine.py.
The oracle call `query_ollama(rerank_prompt)` is modelled by its outcome
`response : Option (List Char)` (`none` = the call raised). -/
def llm_rerank_chunks (response : Option (List Char))
    (chunks : List (List Char)) (topK : Nat) : List (List Char) :=
  if chunks.length ≤ topK then chunks
  else
    match response with
    | none => chunks.take topK
    | some r =>
      let indices := rerankIndices r chunks.length topK
      if indices = [] then chunks.take topK
      else indices.map (fun i => chunks.getD i [])

/-- The hybrid-mode fusion loop of `ask_enhanced` (src/search_engine.py,
lines 172-178): append each doc of `sem_docs + key_docs` that is truthy
and not yet seen.  `acc` carries `all_docs`, `seen` the seen-set. -/
def fuseAux : List (List Char) → List (List Char) → List (List Char) →
    List (List Char)
  | [], acc, _ => acc
  | d :: rest, acc, seen =>
    if d ≠ [] ∧ d ∉ seen then fuseAux rest (acc ++ [d]) (d :: seen)
    else fuseAux rest acc seen

/-- The fused candidate list of hybrid mode. -/
def fuseDocs (semDocs keyDocs : List (List Char)) : List (List Char) :=
  fuseAux (semDocs ++ keyDocs) [] []

/-- The hybrid branch of `ask_enhanced` after both searches returned
(src/search_engine.py, lines 168-188): fuse, return the no-result message
(`none`) on an empty fusion, rerank to 7 only when more than 7 candidates
remain.  The oracle outcome is `response`. -/
def hybridDocs (response : Option (List Char))
    (semDocs keyDocs : List (List Char)) : Option (List (List Char)) :=
  let allDocs := fuseDocs semDocs keyDocs
  if allDocs = [] then none
  else if allDocs.length > 7 then some (llm_rerank_chunks response allDocs 7)
  else some allDocs

/-- Reference first-occurrence deduplication: keep each element's first
occurrence, in order. -/
def dedupFirst {α : Type} [DecidableEq α] : List α → List α
  | [] => []
  | x :: xs => x :: dedupFirst (xs.filter (fun y => y ≠ x))
termination_by l => l.length
decreasing_by
  simp only [List.length_cons]
  exact Nat.lt_succ_of_le (List.length_filter_le _ _)

/-! ## Ingestion (src/ingest_internal_doc.py) -/

/-- One enqueued chunk: `{"text": ..., "metadata": ..., "id": ...}`.
Of the metadata only the time-dependent `ingestion_time` field is kept
(the other fields are functions of the document alone and play no role in
the claims about identifiers and counts). -/
structure IngestItem where
  id : List Char
  text : List Char
  itime : List Char
  deriving DecidableEq

/-- The external vector index, an out-of-scope collaborator.
Modelled from the spec: section 6 declares the vector-index contract
`upsert(ids, texts, metadatas)` keyed by id; the state is an association
list from chunk id to payload. -/
abbrev IndexState : Type := List (List Char × (List Char × List Char))

/-- Modelled from the spec: keyed upsert of a single item into the
external index — replace the entry with the same id, else append. -/
def upsertOne (idx : IndexState) (it : IngestItem) : IndexState :=
  if idx.any (fun e => e.1 = it.id) then
    idx.map (fun e => if e.1 = it.id then (it.id, (it.text, it.itime)) else e)
  else idx ++ [(it.id, (it.text, it.itime))]

/-- Committing a batch: each item upserted in order. -/
def upsertAll (idx : IndexState) (batch : List IngestItem) : IndexState :=
  batch.foldl upsertOne idx

/-- The ids present in the index, in order. -/
def keysOf (idx : IndexState) : List (List Char) := idx.map (·.1)

/-- Embeds `doc_id = f"{filename}_{chunk_idx}_{file_count}"` from
src/ingest_internal_doc.py line 183. -/
def mkDocId (fname : List Char) (chunkIdx fileCount : Nat) : List Char :=
  fname ++ '_' :: natStr chunkIdx ++ '_' :: natStr fileCount

/-- Per-file body of the ingestion loop of
`ingest_documents_from_directories` (src/ingest_internal_doc.py, lines
146-209): skip files whose stripped content is shorter than 100
characters (`none`, no `file_count` increment), otherwise produce the
enqueued items of `chunk_text_with_metadata` in order with their ids.
A chunking error behaves like the source's `except` (file failed, no
increment). -/
def ingestDoc (time fname content : List Char) (fileCount : Nat) :
    Option (List IngestItem) :=
  if (pyStrip content).length < 100 then none
  else
    match chunk_text_smart content 512 64 true with
    | .error _ => none
    | .ok chunks =>
      some (chunks.enum.map (fun (i, c) =>
        { id := mkDocId fname i fileCount, text := c, itime := time }))

/-- Batch accumulation with `batch_size = 50`: append each item; when the
batch is full, flush (commit) and clear. -/
def pushItems (batchSize : Nat) :
    List IngestItem × IndexState → List IngestItem →
    List IngestItem × IndexState
  | st, [] => st
  | (batch, idx), it :: rest =>
    let batch' := batch ++ [it]
    if batchSize ≤ batch'.length then pushItems batchSize ([], upsertAll idx batch') rest
    else pushItems batchSize (batch', idx) rest

/-- The file loop of `ingest_documents_from_directories` after discovery
and priority sorting, with no chunk limit and all commits succeeding:
returns the produced chunk ids (in order) and the final index after the
trailing flush.  `time` is `datetime.now().isoformat()` of the run. -/
def ingestAux (time : List Char) :
    List (List Char × List Char) → Nat → List IngestItem → IndexState →
    List (List Char) × IndexState
  | [], _, batch, idx => ([], upsertAll idx batch)
  | (fname, content) :: rest, fileCount, batch, idx =>
    match ingestDoc time fname content fileCount with
    | none => ingestAux time rest fileCount batch idx
    | some items =>
      let (batch', idx') := pushItems 50 (batch, idx) items
      let (ids, idxF) := ingestAux time rest (fileCount + 1) batch' idx'
      (items.map (·.id) ++ ids, idxF)

/-- A whole ingestion run over an already-discovered, priority-sorted
document list. -/
def ingestRun (time : List Char) (docs : List (List Char × List Char))
    (idx : IndexState) : List (List Char) × IndexState :=
  ingestAux time docs 0 [] idx

/-- Embeds `flush_batch(collection, batch)` from src/ingest_internal_doc.py
(duplicated in src/fixed_ingestion.py): try one atomic multi-item
`collection.add`; if it raises, add each item individually, reporting
each individually-failed item by its id.  The backend is modelled from
the spec by an acceptance predicate `commitOk`: the atomic add succeeds
iff every item is acceptable (and commits all of them), an individual
add succeeds iff that item is acceptable.  Returns the list of committed
items (in commit order) and the reported failed ids. -/
def flush_batch (commitOk : IngestItem → Bool) (batch : List IngestItem) :
    List IngestItem × List (List Char) :=
  if batch = [] then ([], [])
  else if batch.all commitOk then (batch, [])
  else
    batch.foldl
      (fun (done, failed) it =>
        if commitOk it then (done ++ [it], failed) else (done, failed ++ [it.id]))
      ([], [])

/-! ## Concrete inputs used by individual claims -/

/-- A 163-character document (26 words), long enough to pass the
100-character minimum of the ingestion loop. -/
def c2Content : List Char :=
  ("alpha bravo charlie delta echo foxtrot golf hotel india juliet kilo " ++
   "lima mike november oscar papa quebec romeo sierra tango uniform victor " ++
   "whiskey xray yankee zulu").data

/-- The company-tag round-trip input of the spec's testable property. -/
def c3Input : List Char :=
  "Company_Names: Acme,Acme Corp\nAcme makes widgets.".data

/-- An enumeration of the tag set `{Acme, Acme Corp}` that Python's
unordered `set` is free to produce: `Acme Corp` first. -/
def c3Enum : List (List Char) := ["Acme Corp".data, "Acme".data]

/-- A 10-word chunk containing the boilerplate phrase `privacy policy`. -/
def c7Short : List Char :=
  "privacy policy one two three four five six seven eight".data

/-- A 60-word chunk containing no boilerplate phrase. -/
def c7Long : List Char :=
  ("alpha beta alpha beta alpha beta alpha beta alpha beta alpha beta " ++
   "alpha beta alpha beta alpha beta alpha beta alpha beta alpha beta " ++
   "alpha beta alpha beta alpha beta alpha beta alpha beta alpha beta " ++
   "alpha beta alpha beta alpha beta alpha beta alpha beta alpha beta " ++
   "alpha beta alpha beta alpha beta alpha beta alpha beta alpha beta").data

/-- Tagged document used to witness the company-aware content types. -/
def c10Input : List Char :=
  "Company_Names: Acme\nAcme makes widgets. Everyone likes the pricing.".data

/-- The chunk/metadata list the company-aware strategy produces on
`c10Input` with the one-element enumeration. -/
def c10Result : List (List Char × ChunkMeta) :=
  chunk_text_with_company_context (fun _ => ["Acme".data]) c10Input
    "f.txt".data 512 64

/-- Default metadata record (placeholder for `headD`). -/
def metaDefault : ChunkMeta :=
  ⟨[], 0, 0, 0, none, none, none, none, []⟩

/-- The four plain content-type categories. -/
def plainTypes : List (List Char) :=
  ["pricing".data, "features".data, "competitive".data, "general".data]

/-- The items produced (in commit order) by the ingestion loop over a
document list, with the running `file_count`. -/
def runItems (time : List Char) :
    List (List Char × List Char) → Nat → List IngestItem
  | [], _ => []
  | (fname, content) :: rest, fileCount =>
    match ingestDoc time fname content fileCount with
    | none => runItems time rest fileCount
    | some items => items ++ runItems time rest (fileCount + 1)

/-! ## Word-mode chunking: claims C4 and C9 -/

/-- Claim C4. Word-mode chunking on `"a b c d e f g h i j"` with
`chunk_size = 4` and `overlap = 1` returns exactly
`["a b c d", "d e f g", "g h i j", "j"]`: the window start advances by
`chunk_size − overlap = 3` words and the last window is shorter than
`chunk_size` (1 word). -/
theorem c4_word_window_example :
    chunk_by_words "a b c d e f g h i j".data 4 1 =
      .ok ["a b c d".data, "d e f g".data, "g h i j".data, "j".data] ∧
    ["a b c d".data, "d e f g".data, "g h i j".data, "j".data].map
        (fun c => (pyWords c).length) = [4, 4, 4, 1] :=
  ⟨rfl, by decide⟩

/-- Claim C9. For every text and every configuration with
`overlap < chunk_size`, word-mode chunking is total: both
`_chunk_by_words` and the word-mode path of `chunk_text_smart` return a
chunk list (never the `ValueError` of a zero range step). -/
theorem c9_word_mode_total (t : List Char) (chunkSize overlap : Nat)
    (h : overlap < chunkSize) :
    (∃ l, chunk_by_words t chunkSize overlap = .ok l) ∧
    (∃ l, chunk_text_smart t chunkSize overlap false = .ok l) := by
  have hz : ¬((chunkSize : Int) - overlap = 0) := by omega
  have hn : ¬((chunkSize : Int) - overlap < 0) := by omega
  have hw : ∀ u : List Char, ∃ l, chunk_by_words u chunkSize overlap = .ok l := by
    intro u
    exact ⟨((pyRange3 (pyWords u).length (chunkSize - overlap)).map
              (fun i => joinWith ' ' (((pyWords u).drop i).take chunkSize))).filter
            (fun ch => pyStrip ch ≠ []),
           by unfold chunk_by_words; rw [if_neg hz, if_neg hn]⟩
  refine ⟨hw t, ?_⟩
  unfold chunk_text_smart
  by_cases hs : pyStrip t = []
  · exact ⟨[], by rw [if_pos hs]⟩
  · rw [if_neg hs]
    exact hw _

/-- Witness for C9 at `chunk_size = 2`, `overlap = 1`. -/
theorem c9_word_mode_total_witness :
    (∃ l, chunk_by_words "a b c".data 2 1 = .ok l) ∧
    (∃ l, chunk_text_smart "a b c".data 2 1 false = .ok l) :=
  c9_word_mode_total "a b c".data 2 1 (by decide)

/-! ## Quality filter: claim C7 -/

/-- An accumulate-if `foldl` is a `filter`. -/
theorem foldl_append_if_eq_filter {α : Type} (p : α → Bool) :
    ∀ (l : List α) (acc : List α),
      l.foldl (fun a c => if p c then a ++ [c] else a) acc = acc ++ l.filter p := by
  intro l
  induction l with
  | nil => intro acc; simp
  | cons c rest ih =>
    intro acc
    by_cases h : p c
    · simp only [List.foldl_cons, if_pos h, List.filter_cons, h, ite_true, ih,
        List.append_assoc, List.singleton_append]
    · simp only [List.foldl_cons, if_neg h, List.filter_cons, h, ite_false, ih,
        Bool.false_eq_true]

/-- Claim C7. The quality filter keeps exactly the chunks with at least the
configured minimum word count and no boilerplate phrase: it equals a
`filter`, membership in the result is characterised exactly, order is
preserved, and on the spec's examples a 10-word chunk containing
`privacy policy` is dropped while a boilerplate-free 60-word chunk is
retained. -/
theorem c7_quality_filter (chunks : List (List Char)) (minWords : Nat) :
    filter_chunk_quality chunks minWords = chunks.filter (chunkQualityOk minWords) ∧
    (∀ c, c ∈ filter_chunk_quality chunks minWords ↔
      c ∈ chunks ∧ minWords ≤ (pyWords c).length ∧
        ¬ boilerplateSignals.any (fun s => isSubstr s (toLowerL c)) = true) ∧
    filter_chunk_quality [c7Short] 50 = [] ∧
    filter_chunk_quality [c7Long] 50 = [c7Long] ∧
    (pyWords c7Short).length = 10 ∧ isSubstr "privacy policy".data c7Short = true ∧
    (pyWords c7Long).length = 60 := by
  have hfilter : filter_chunk_quality chunks minWords =
      chunks.filter (chunkQualityOk minWords) := by
    unfold filter_chunk_quality
    rw [foldl_append_if_eq_filter]
    simp
  refine ⟨hfilter, ?_, by decide, by decide, by decide, by decide, by decide⟩
  intro c
  rw [hfilter, List.mem_filter]
  unfold chunkQualityOk
  simp [Bool.and_eq_true, decide_eq_true_eq]

/-- Witness for C7: membership characterisation applied to the retained
60-word chunk. -/
theorem c7_quality_filter_witness :
    c7Long ∈ filter_chunk_quality [c7Long] 50 :=
  ((c7_quality_filter [c7Long] 50).2.1 c7Long).mpr
    ⟨by decide, by decide, by decide⟩

/-! ## Reranker: claim C5 -/

/-- Every index kept by the permissive parse is in range. -/
theorem rerankIndices_lt (r : List Char) (n topK : Nat) :
    ∀ i ∈ rerankIndices r n topK, i < n := by
  intro i hi
  unfold rerankIndices at hi
  have hi' := List.mem_of_mem_take hi
  have := (List.mem_filter.mp hi').2
  simpa using this

/-- The parse keeps at most `top_k` indices. -/
theorem rerankIndices_length_le (r : List Char) (n topK : Nat) :
    (rerankIndices r n topK).length ≤ topK := by
  unfold rerankIndices
  simpa using Nat.min_le_left _ _

/-- Claim C5. The reranker returns the candidates unchanged when there are
at most `top_k` of them; otherwise it returns at most `top_k` elements,
all drawn from the candidates; and whenever the oracle outcome yields
zero usable indices — the call raised (`none`) or the response parses to
no in-range integer — it returns the first `top_k` candidates in their
original order.  The function is total (no error surfaces to the
caller). -/
theorem c5_rerank_contract (response : Option (List Char))
    (chunks : List (List Char)) (topK : Nat) :
    (chunks.length ≤ topK → llm_rerank_chunks response chunks topK = chunks) ∧
    (chunks.length > topK →
      (llm_rerank_chunks response chunks topK).length ≤ topK ∧
      ∀ c ∈ llm_rerank_chunks response chunks topK, c ∈ chunks) ∧
    (response = none → llm_rerank_chunks response chunks topK = chunks.take topK) ∧
    (∀ r, response = some r → rerankIndices r chunks.length topK = [] →
      llm_rerank_chunks response chunks topK = chunks.take topK) := by
  by_cases hle : chunks.length ≤ topK
  · have hid : llm_rerank_chunks response chunks topK = chunks := by
      unfold llm_rerank_chunks; rw [if_pos hle]
    have htake : chunks.take topK = chunks := List.take_of_length_le hle
    refine ⟨fun _ => hid, fun hgt => absurd hle (by omega), ?_, ?_⟩
    · intro _; rw [hid, htake]
    · intro r _ _; rw [hid, htake]
  · have hmain : (llm_rerank_chunks response chunks topK).length ≤ topK ∧
        ∀ c ∈ llm_rerank_chunks response chunks topK, c ∈ chunks := by
      cases response with
      | none =>
        unfold llm_rerank_chunks
        rw [if_neg hle]
        exact ⟨by simpa using Nat.min_le_left _ _,
               fun c hc => List.mem_of_mem_take hc⟩
      | some r =>
        unfold llm_rerank_chunks
        rw [if_neg hle]
        dsimp only
        by_cases hidx : rerankIndices r chunks.length topK = []
        · rw [if_pos hidx]
          exact ⟨by simpa using Nat.min_le_left _ _,
                 fun c hc => List.mem_of_mem_take hc⟩
        · rw [if_neg hidx]
          constructor
          · rw [List.length_map]
            exact rerankIndices_length_le r chunks.length topK
          · intro c hc
            rcases List.mem_map.mp hc with ⟨i, hi, hci⟩
            have hlt : i < chunks.length := rerankIndices_lt r chunks.length topK i hi
            rw [← hci, List.getD_eq_getElem chunks [] hlt]
            exact List.getElem_mem hlt
    refine ⟨fun h => absurd h hle, fun _ => hmain, ?_, ?_⟩
    · intro hnone
      subst hnone
      unfold llm_rerank_chunks
      rw [if_neg hle]
    · intro r hr hidx
      subst hr
      unfold llm_rerank_chunks
      rw [if_neg hle]
      dsimp only
      rw [if_pos hidx]

/-- Witness for C5: a response with no parseable integer leaves the first
`top_k = 2` of 3 candidates. -/
theorem c5_rerank_contract_witness :
    llm_rerank_chunks (some "no numbers here".data)
        ["a".data, "b".data, "c".data] 2 =
      (["a".data, "b".data, "c".data]).take 2 :=
  (c5_rerank_contract (some "no numbers here".data)
      ["a".data, "b".data, "c".data] 2).2.2.2
    "no numbers here".data rfl (by decide)

/-! ## Hybrid fusion: claim C1 -/

theorem dedupFirst_nil {α : Type} [DecidableEq α] : dedupFirst ([] : List α) = [] := by
  simp [dedupFirst]

theorem dedupFirst_cons {α : Type} [DecidableEq α] (x : α) (xs : List α) :
    dedupFirst (x :: xs) = x :: dedupFirst (xs.filter (fun y => y ≠ x)) := by
  rw [dedupFirst]

/-- The fusion loop of `ask_enhanced` computes first-occurrence
deduplication of the non-empty docs not yet seen. -/
theorem fuseAux_eq_dedupFirst :
    ∀ (l acc seen : List (List Char)),
      fuseAux l acc seen =
        acc ++ dedupFirst (l.filter (fun d => decide (d ≠ [] ∧ d ∉ seen))) := by
  intro l
  induction l with
  | nil => intro acc seen; simp [fuseAux, dedupFirst_nil]
  | cons d rest ih =>
    intro acc seen
    have hunfold : fuseAux (d :: rest) acc seen =
        if d ≠ [] ∧ d ∉ seen then fuseAux rest (acc ++ [d]) (d :: seen)
        else fuseAux rest acc seen := rfl
    by_cases h : d ≠ [] ∧ d ∉ seen
    · rw [hunfold, if_pos h, ih, List.filter_cons_of_pos (by simpa using h),
        dedupFirst_cons, List.filter_filter]
      have hcongr : rest.filter (fun a => decide (a ≠ d) && decide (a ≠ [] ∧ a ∉ seen)) =
          rest.filter (fun a => decide (a ≠ [] ∧ a ∉ d :: seen)) := by
        apply List.filter_congr
        intro a _
        rw [← Bool.decide_and, decide_eq_decide]
        simp only [List.mem_cons, not_or]
        tauto
      rw [hcongr]
      simp
    · rw [hunfold, if_neg h, ih, List.filter_cons_of_neg (by simpa using h)]

/-- Claim C1. Hybrid fusion merges the semantic results first and the
keyword results after them, keeping first occurrences only (exact text
equality); on backend results containing no empty strings (the quality
filter guarantees ≥ 50 words) it is exactly first-occurrence
deduplication of `semantic ++ keyword`; the combined pool is truncated
only through the reranker: whenever the fused pool exceeds the cap of 7,
the reranker receives the entire fused pool; at or below the cap the
pool is returned in full; and on the spec example
`semantic = [A,B,C]`, `keyword = [B,D]` the fusion is `[A,B,C,D]` of
length 4. -/
theorem c1_hybrid_fusion (semDocs keyDocs : List (List Char))
    (response : Option (List Char)) :
    fuseDocs semDocs keyDocs =
      dedupFirst ((semDocs ++ keyDocs).filter (fun d => d ≠ [])) ∧
    ((∀ d ∈ semDocs ++ keyDocs, d ≠ []) →
      fuseDocs semDocs keyDocs = dedupFirst (semDocs ++ keyDocs)) ∧
    ((fuseDocs semDocs keyDocs).length > 7 →
      hybridDocs response semDocs keyDocs =
        some (llm_rerank_chunks response (fuseDocs semDocs keyDocs) 7)) ∧
    (fuseDocs semDocs keyDocs ≠ [] → (fuseDocs semDocs keyDocs).length ≤ 7 →
      hybridDocs response semDocs keyDocs = some (fuseDocs semDocs keyDocs)) ∧
    fuseDocs ["A".data, "B".data, "C".data] ["B".data, "D".data] =
      ["A".data, "B".data, "C".data, "D".data] ∧
    (fuseDocs ["A".data, "B".data, "C".data] ["B".data, "D".data]).length = 4 := by
  have hbase : fuseDocs semDocs keyDocs =
      dedupFirst ((semDocs ++ keyDocs).filter (fun d => d ≠ [])) := by
    unfold fuseDocs
    rw [fuseAux_eq_dedupFirst]
    have hc : (semDocs ++ keyDocs).filter
          (fun d => decide (d ≠ [] ∧ d ∉ ([] : List (List Char)))) =
        (semDocs ++ keyDocs).filter (fun d => d ≠ []) := by
      apply List.filter_congr
      intro a _
      rw [decide_eq_decide]
      simp
    rw [hc]
    simp
  refine ⟨hbase, ?_, ?_, ?_, by decide, by decide⟩
  · intro hne
    rw [hbase, List.filter_eq_self.mpr (by intro a ha; simpa using hne a ha)]
  · intro hgt
    have hne : fuseDocs semDocs keyDocs ≠ [] := by
      intro hnil
      rw [hnil] at hgt
      simp at hgt
    unfold hybridDocs
    rw [if_neg hne, if_pos hgt]
  · intro hne hle
    unfold hybridDocs
    rw [if_neg hne, if_neg (by omega)]

/-- Witness for C1: on empty-free inputs the fusion equals reference
first-occurrence deduplication. -/
theorem c1_hybrid_fusion_witness :
    fuseDocs ["A".data, "B".data, "C".data] ["B".data, "D".data] =
      dedupFirst (["A".data, "B".data, "C".data] ++ ["B".data, "D".data]) :=
  (c1_hybrid_fusion ["A".data, "B".data, "C".data] ["B".data, "D".data] none).2.1
    (by decide)

/-! ## Batch flushing: claim C6 -/

/-- The individual-commit fallback loop of `flush_batch` partitions the
batch: acceptable items are committed in order, the rest are reported by
id. -/
theorem flush_fallback_spec (commitOk : IngestItem → Bool) :
    ∀ (l : List IngestItem) (d : List IngestItem) (f : List (List Char)),
      l.foldl
          (fun st it =>
            if commitOk it then (st.1 ++ [it], st.2) else (st.1, st.2 ++ [it.id]))
          (d, f) =
        (d ++ l.filter commitOk,
         f ++ (l.filter (fun it => !commitOk it)).map (·.id)) := by
  intro l
  induction l with
  | nil => intro d f; simp
  | cons it rest ih =>
    intro d f
    by_cases h : commitOk it
    · simp only [List.foldl_cons, if_pos h, ih, List.filter_cons, h, ite_true,
        Bool.not_true, List.append_assoc, List.singleton_append]
      simp
    · simp only [List.foldl_cons, if_neg h, ih, List.filter_cons,
        Bool.not_eq_true' .. ▸ rfl]
      simp [h]

/-- Claim C6. For every batch and every backend acceptance predicate, the
flush commits exactly the acceptable items (in order) and reports exactly
the ids of the unacceptable ones — whether the atomic commit succeeded
or the individual fallback ran; nothing is silently dropped.  On a
concrete batch whose middle item has empty text, both well-formed items
are committed and the malformed item is reported by its id. -/
theorem c6_flush_partial_isolation (commitOk : IngestItem → Bool)
    (batch : List IngestItem) :
    (flush_batch commitOk batch).1 = batch.filter commitOk ∧
    (flush_batch commitOk batch).2 =
      (batch.filter (fun it => !commitOk it)).map (·.id) ∧
    flush_batch (fun it => !it.text.isEmpty)
        [⟨"doc.txt_0_0".data, "good one".data, []⟩,
         ⟨"doc.txt_1_0".data, [], []⟩,
         ⟨"doc.txt_2_0".data, "good two".data, []⟩] =
      ([⟨"doc.txt_0_0".data, "good one".data, []⟩,
        ⟨"doc.txt_2_0".data, "good two".data, []⟩],
       ["doc.txt_1_0".data]) := by
  refine ⟨?_, ?_, by decide⟩ <;>
  · unfold flush_batch
    by_cases hnil : batch = []
    · subst hnil; simp
    · rw [if_neg hnil]
      by_cases hall : batch.all commitOk
      · rw [if_pos hall]
        have h1 : batch.filter commitOk = batch :=
          List.filter_eq_self.mpr (fun a ha => List.all_eq_true.mp hall a ha)
        have h2 : batch.filter (fun it => !commitOk it) = [] :=
          List.filter_eq_nil_iff.mpr
            (fun a ha => by simp [List.all_eq_true.mp hall a ha])
        simp [h1, h2]
      · rw [if_neg hall, flush_fallback_spec]
        simp

/-! ## Company tag parsing: claim C3 -/

theorem splitOnCharAux_ne_nil (sep : Char) :
    ∀ (l cur : List Char), splitOnCharAux sep cur l ≠ [] := by
  intro l
  induction l with
  | nil => intro cur; simp [splitOnCharAux]
  | cons c rest ih =>
    intro cur
    by_cases h : c = sep
    · simp [splitOnCharAux, h]
    · simpa [splitOnCharAux, h] using ih (c :: cur)

theorem joinWith_cons (sep : Char) (x : List Char) (l : List (List Char))
    (h : l ≠ []) : joinWith sep (x :: l) = x ++ sep :: joinWith sep l := by
  cases l with
  | nil => exact absurd rfl h
  | cons y t => rfl

/-- Splitting on a separator and joining with it is the identity. -/
theorem joinWith_splitOnCharAux (sep : Char) :
    ∀ (l cur : List Char),
      joinWith sep (splitOnCharAux sep cur l) = cur.reverse ++ l := by
  intro l
  induction l with
  | nil => intro cur; simp [splitOnCharAux, joinWith]
  | cons c rest ih =>
    intro cur
    by_cases h : c = sep
    · have hne := splitOnCharAux_ne_nil sep rest []
      rw [show splitOnCharAux sep cur (c :: rest) =
            cur.reverse :: splitOnCharAux sep [] rest by simp [splitOnCharAux, h],
        joinWith_cons sep _ _ hne, ih [], h]
      simp
    · rw [show splitOnCharAux sep cur (c :: rest) =
            splitOnCharAux sep (c :: cur) rest by simp [splitOnCharAux, h],
        ih (c :: cur)]
      simp

theorem joinWith_splitOnChar (sep : Char) (l : List Char) :
    joinWith sep (splitOnChar sep l) = l := by
  simpa using joinWith_splitOnCharAux sep l []

/-- Membership in the folded tag set. -/
theorem mem_tag_fold (x : List Char) :
    ∀ (lines : List (List Char)) (s : Finset (List Char)),
      (x ∈ lines.foldl
          (fun s ln =>
            match companyPayload ln with
            | none => s
            | some p => s ∪ (companiesOf p).toFinset) s) ↔
        x ∈ s ∨ ∃ ln ∈ lines, ∃ p, companyPayload ln = some p ∧ x ∈ companiesOf p := by
  intro lines
  induction lines with
  | nil => intro s; simp
  | cons ln rest ih =>
    intro s
    cases hp : companyPayload ln with
    | none =>
      rw [List.foldl_cons]
      simp only [hp, ih]
      constructor
      · rintro (hs | ⟨ln', hln', p, hp', hx⟩)
        · exact Or.inl hs
        · exact Or.inr ⟨ln', List.mem_cons_of_mem _ hln', p, hp', hx⟩
      · rintro (hs | ⟨ln', hln', p, hp', hx⟩)
        · exact Or.inl hs
        · rcases List.mem_cons.mp hln' with h | h
          · subst h; rw [hp] at hp'; exact absurd hp' (by simp)
          · exact Or.inr ⟨ln', h, p, hp', hx⟩
    | some p =>
      rw [List.foldl_cons]
      simp only [hp, ih, Finset.mem_union, List.mem_toFinset]
      constructor
      · rintro ((hs | hx) | ⟨ln', hln', p', hp', hx⟩)
        · exact Or.inl hs
        · exact Or.inr ⟨ln, by simp, p, hp, hx⟩
        · exact Or.inr ⟨ln', by simp [hln'], p', hp', hx⟩
      · rintro (hs | ⟨ln', hln', p', hp', hx⟩)
        · exact Or.inl (Or.inl hs)
        · rcases List.mem_cons.mp hln' with h | h
          · subst h
            rw [hp] at hp'
            cases hp'
            exact Or.inl (Or.inr hx)
          · exact Or.inr ⟨ln', h, p', hp', hx⟩

/-- Claim C3 (amended). The company-tag parser removes every line matching
the case-insensitive `Company_Names:` header pattern from the returned
text and merges the trimmed comma-separated values into an *unordered
deduplicated* set (a Python `set` — no order is preserved); on the
spec's example the cleaned text is `"Acme makes widgets."` and the set is
`{Acme, Acme Corp}`; with no matching line the text is returned
unchanged with the empty set. -/
theorem c3_company_tags :
    parse_company_tags c3Input =
      ("Acme makes widgets.".data, {"Acme".data, "Acme Corp".data}) ∧
    (∀ t, (∀ ln ∈ splitOnChar '\n' t, companyPayload ln = none) →
      parse_company_tags t = (t, ∅)) ∧
    (∀ t x, x ∈ (parse_company_tags t).2 ↔
      ∃ ln ∈ splitOnChar '\n' t, ∃ p,
        companyPayload ln = some p ∧ x ∈ companiesOf p) ∧
    (∀ t, (parse_company_tags t).1 =
      joinWith '\n'
        ((splitOnChar '\n' t).filter (fun ln => (companyPayload ln).isNone))) := by
  refine ⟨by decide, ?_, ?_, fun t => rfl⟩
  · intro t hnone
    unfold parse_company_tags
    refine Prod.ext ?_ ?_
    · show joinWith '\n' ((splitOnChar '\n' t).filter _) = t
      rw [List.filter_eq_self.mpr (fun ln hln => by simp [hnone ln hln]),
        joinWith_splitOnChar]
    · show (splitOnChar '\n' t).foldl _ ∅ = ∅
      have : ∀ (lines : List (List Char)), (∀ ln ∈ lines, companyPayload ln = none) →
          lines.foldl
            (fun s ln =>
              match companyPayload ln with
              | none => s
              | some p => s ∪ (companiesOf p).toFinset) (∅ : Finset (List Char)) = ∅ := by
        intro lines
        induction lines with
        | nil => intro _; rfl
        | cons ln rest ih =>
          intro hall
          rw [List.foldl_cons, hall ln (by simp)]
          exact ih (fun ln' h => hall ln' (by simp [h]))
      exact this _ hnone
  · intro t x
    unfold parse_company_tags
    rw [mem_tag_fold]
    simp

/-- Witness for C3: a text with no tag line is returned unchanged with
the empty company set. -/
theorem c3_company_tags_witness :
    parse_company_tags "hello\nworld".data = ("hello\nworld".data, ∅) :=
  c3_company_tags.2.1 "hello\nworld".data (by decide)

/-- Claim C3 counterexample. The company set is a Python `set`, so the code
admits the enumeration `[Acme Corp, Acme]` of the tag set
`{Acme, Acme Corp}` (a duplicate-free list with exactly the set's
elements); under it the primary company of every produced chunk is
`"Acme Corp"` and the normalized primary is `"acme_corp"` — not the
claimed `"Acme"` / `"acme"`.  Order preservation and `primary = first
listed tag` are therefore not guaranteed by the code. -/
theorem c3_company_tags_counterexample :
    c3Enum.Nodup ∧
    c3Enum.toFinset = (parse_company_tags c3Input).2 ∧
    chunk_text_with_company_context (fun _ => c3Enum) c3Input
        "f.txt".data 512 64 =
      [("Acme makes widgets.".data,
        { source := "f.txt".data
          chunk_index := 0
          total_chunks := 1
          chunk_word_count := 3
          primary_company := some "Acme Corp".data
          all_companies := some ["Acme Corp".data, "Acme".data]
          company_normalized := some "acme_corp".data
          company_aliases := some ["acme_corp".data, "acme".data]
          content_type := "general_acme_corp".data })] ∧
    ("Acme Corp".data ≠ "Acme".data ∧ "acme_corp".data ≠ "acme".data) := by
  refine ⟨by decide, by decide, by decide, by decide, by decide⟩

/-! ## Company-aware content types: claim C10 -/

/-- Tag-set elements are produced by `companiesOf`, which filters out
empty strings. -/
theorem tag_mem_ne_nil (t x : List Char) (hx : x ∈ (parse_company_tags t).2) :
    x ≠ [] := by
  unfold parse_company_tags at hx
  rw [mem_tag_fold] at hx
  rcases hx with hx | ⟨ln, _, p, _, hx⟩
  · simp at hx
  · unfold companiesOf at hx
    have := (List.mem_filter.mp hx).2
    simpa using this

/-- The base content type is always one of the four plain categories. -/
theorem baseContentType_mem_plain (c : List Char) :
    baseContentType c ∈ plainTypes := by
  unfold baseContentType plainTypes
  dsimp only
  split_ifs <;> simp

/-- No plain category contains an underscore. -/
theorem plainTypes_no_underscore : ∀ p ∈ plainTypes, '_' ∉ p := by decide

/-- Claim C10. For every document whose parsed company tag set is
non-empty, under any enumeration of that set (Python's `list(set)`),
every chunk the company-aware strategy produces has
`content_type = base ++ "_" ++ normalized-primary` where `base` is one
of the four plain categories — and consequently `content_type` is never
one of the four plain category values. -/
theorem c10_company_content_type
    (listOf : Finset (List Char) → List (List Char))
    (text fname : List Char) (chunkSize overlap : Nat)
    (henum : (listOf (parse_company_tags text).2).toFinset =
      (parse_company_tags text).2)
    (hne : (parse_company_tags text).2 ≠ ∅) :
    ∀ cm ∈ chunk_text_with_company_context listOf text fname chunkSize overlap,
      cm.2.content_type =
        baseContentType cm.1 ++ '_' ::
          normalize_company_name ((listOf (parse_company_tags text).2).headD []) ∧
      baseContentType cm.1 ∈ plainTypes ∧
      cm.2.content_type ∉ plainTypes := by
  intro cm hcm
  have hlist : listOf (parse_company_tags text).2 ≠ [] := by
    intro h0
    apply hne
    rw [← henum, h0]
    rfl
  have hmem : (listOf (parse_company_tags text).2).headD [] ∈
      listOf (parse_company_tags text).2 := by
    obtain ⟨a, l, hl⟩ := List.exists_cons_of_ne_nil hlist
    rw [hl]
    simp
  have hhead : (listOf (parse_company_tags text).2).headD [] ∈
      (parse_company_tags text).2 := by
    nth_rewrite 1 [← henum]
    exact List.mem_toFinset.mpr hmem
  have hp0 : (listOf (parse_company_tags text).2).headD [] ≠ [] :=
    tag_mem_ne_nil text _ hhead
  unfold chunk_text_with_company_context at hcm
  dsimp only at hcm
  by_cases hc : pyStrip (parse_company_tags text).1 = []
  · rw [if_pos hc] at hcm
    simp at hcm
  · rw [if_neg hc] at hcm
    cases hcc : chunk_text_smart (parse_company_tags text).1 chunkSize overlap true with
    | error e => rw [hcc] at hcm; simp at hcm
    | ok chunks =>
      rw [hcc] at hcm
      dsimp only at hcm
      rw [if_neg hne] at hcm
      rcases List.mem_map.mp hcm with ⟨⟨i, c⟩, _, hceq⟩
      have hct : cm.2.content_type =
          baseContentType c ++ '_' ::
            normalize_company_name ((listOf (parse_company_tags text).2).headD []) := by
        rw [← hceq]
        simp only
        rw [if_neg hp0]
      have hc1 : cm.1 = c := by rw [← hceq]
      rw [hc1, hct]
      refine ⟨rfl, baseContentType_mem_plain c, fun hin => ?_⟩
      have hus : '_' ∈ baseContentType c ++ '_' ::
          normalize_company_name ((listOf (parse_company_tags text).2).headD []) := by
        simp
      exact plainTypes_no_underscore _ hin hus

/-- Witness for C10: on a tagged pricing document the produced chunk's
content type is not a plain category. -/
theorem c10_company_content_type_witness :
    (c10Result.headD ([], metaDefault)).2.content_type ∉ plainTypes ∧
    (c10Result.headD ([], metaDefault)).2.content_type = "pricing_acme".data :=
  ⟨((c10_company_content_type (fun _ => ["Acme".data]) c10Input "f.txt".data
          512 64 (by decide) (by decide))
        (c10Result.headD ([], metaDefault)) (by decide)).2.2,
    by decide⟩

/-! ## Ingestion idempotence: claim C2 -/

theorem keysOf_upsertOne (idx : IndexState) (it : IngestItem) :
    keysOf (upsertOne idx it) =
      if it.id ∈ keysOf idx then keysOf idx else keysOf idx ++ [it.id] := by
  unfold upsertOne keysOf
  have hiff : (idx.any (fun e => e.1 = it.id) = true) ↔ it.id ∈ idx.map (·.1) := by
    rw [List.any_eq_true, List.mem_map]
    constructor
    · rintro ⟨e, he, hid⟩
      exact ⟨e, he, by simpa using hid⟩
    · rintro ⟨e, he, hid⟩
      exact ⟨e, he, by simpa using hid⟩
  by_cases h : idx.any (fun e => e.1 = it.id) = true
  · rw [if_pos h, if_pos (hiff.mp h), List.map_map]
    apply List.map_congr_left
    intro e _
    by_cases he : e.1 = it.id
    · simp [he]
    · simp [he]
  · rw [if_neg h, if_neg (fun hm => h (hiff.mpr hm))]
    simp

theorem mem_keysOf_upsertOne (idx : IndexState) (it : IngestItem) (k : List Char)
    (hk : k ∈ keysOf idx) : k ∈ keysOf (upsertOne idx it) := by
  rw [keysOf_upsertOne]
  by_cases h : it.id ∈ keysOf idx
  · rw [if_pos h]; exact hk
  · rw [if_neg h]; exact List.mem_append_left _ hk

theorem self_mem_keysOf_upsertOne (idx : IndexState) (it : IngestItem) :
    it.id ∈ keysOf (upsertOne idx it) := by
  rw [keysOf_upsertOne]
  by_cases h : it.id ∈ keysOf idx
  · rw [if_pos h]; exact h
  · rw [if_neg h]; simp

theorem keysOf_upsertAll_of_mem :
    ∀ (batch : List IngestItem) (idx : IndexState),
      (∀ it ∈ batch, it.id ∈ keysOf idx) →
      keysOf (upsertAll idx batch) = keysOf idx := by
  intro batch
  induction batch with
  | nil => intro idx _; rfl
  | cons it rest ih =>
    intro idx hall
    show keysOf (upsertAll (upsertOne idx it) rest) = keysOf idx
    have hkeys : keysOf (upsertOne idx it) = keysOf idx := by
      rw [keysOf_upsertOne, if_pos (hall it (by simp))]
    rw [ih (upsertOne idx it) (fun it' h' => by
      rw [hkeys]; exact hall it' (by simp [h'])), hkeys]

theorem mem_keysOf_upsertAll_mono :
    ∀ (batch : List IngestItem) (idx : IndexState) (k : List Char),
      k ∈ keysOf idx → k ∈ keysOf (upsertAll idx batch) := by
  intro batch
  induction batch with
  | nil => intro idx k hk; exact hk
  | cons it rest ih =>
    intro idx k hk
    exact ih (upsertOne idx it) k (mem_keysOf_upsertOne idx it k hk)

theorem mem_keysOf_upsertAll_self :
    ∀ (batch : List IngestItem) (idx : IndexState) (it : IngestItem),
      it ∈ batch → it.id ∈ keysOf (upsertAll idx batch) := by
  intro batch
  induction batch with
  | nil => intro idx it h; simp at h
  | cons hd rest ih =>
    intro idx it hmem
    rcases List.mem_cons.mp hmem with h | h
    · subst h
      exact mem_keysOf_upsertAll_mono rest _ _ (self_mem_keysOf_upsertOne idx it)
    · exact ih _ it h

theorem upsertAll_append (idx : IndexState) (b1 b2 : List IngestItem) :
    upsertAll idx (b1 ++ b2) = upsertAll (upsertAll idx b1) b2 :=
  List.foldl_append _ _ _ _

/-- Flushing at batch boundaries commutes with one big commit: the
final index only depends on the concatenation of all enqueued items. -/
theorem pushItems_spec :
    ∀ (items batch : List IngestItem) (idx : IndexState) (rest : List IngestItem),
      upsertAll (pushItems 50 (batch, idx) items).2
          ((pushItems 50 (batch, idx) items).1 ++ rest) =
        upsertAll idx (batch ++ items ++ rest) := by
  intro items
  induction items with
  | nil => intro batch idx rest; simp [pushItems]
  | cons it tl ih =>
    intro batch idx rest
    have hunf : pushItems 50 (batch, idx) (it :: tl) =
        if 50 ≤ (batch ++ [it]).length then
          pushItems 50 ([], upsertAll idx (batch ++ [it])) tl
        else pushItems 50 (batch ++ [it], idx) tl := rfl
    rw [hunf]
    by_cases hfull : 50 ≤ (batch ++ [it]).length
    · rw [if_pos hfull, ih [] (upsertAll idx (batch ++ [it])) rest,
        ← upsertAll_append]
      simp
    · rw [if_neg hfull, ih (batch ++ [it]) idx rest]
      simp

theorem ingestAux_snd (time : List Char) :
    ∀ (docs : List (List Char × List Char)) (fc : Nat)
      (batch : List IngestItem) (idx : IndexState),
      (ingestAux time docs fc batch idx).2 =
        upsertAll idx (batch ++ runItems time docs fc) := by
  intro docs
  induction docs with
  | nil => intro fc batch idx; simp [ingestAux, runItems]
  | cons doc rest ih =>
    intro fc batch idx
    obtain ⟨fname, content⟩ := doc
    cases hdoc : ingestDoc time fname content fc with
    | none =>
      simp only [ingestAux, runItems, hdoc]
      exact ih fc batch idx
    | some items =>
      simp only [ingestAux, runItems, hdoc]
      rw [ih (fc + 1) (pushItems 50 (batch, idx) items).1
        (pushItems 50 (batch, idx) items).2]
      have hps := pushItems_spec items batch idx (runItems time rest (fc + 1))
      rw [hps]
      simp

theorem ingestAux_fst (time : List Char) :
    ∀ (docs : List (List Char × List Char)) (fc : Nat)
      (batch : List IngestItem) (idx : IndexState),
      (ingestAux time docs fc batch idx).1 =
        (runItems time docs fc).map (·.id) := by
  intro docs
  induction docs with
  | nil => intro fc batch idx; simp [ingestAux, runItems]
  | cons doc rest ih =>
    intro fc batch idx
    obtain ⟨fname, content⟩ := doc
    cases hdoc : ingestDoc time fname content fc with
    | none =>
      simp only [ingestAux, runItems, hdoc]
      exact ih fc batch idx
    | some items =>
      simp only [ingestAux, runItems, hdoc]
      rw [ih (fc + 1), List.map_append]

/-- The ids a document contributes do not depend on the ingestion
timestamp (the id is built from filename, chunk index and file count
alone). -/
theorem ingestDoc_ids (t1 t2 fname content : List Char) (fc : Nat) :
    (ingestDoc t1 fname content fc).map (List.map (·.id)) =
      (ingestDoc t2 fname content fc).map (List.map (·.id)) := by
  unfold ingestDoc
  by_cases hshort : (pyStrip content).length < 100
  · rw [if_pos hshort, if_pos hshort]
  · rw [if_neg hshort, if_neg hshort]
    cases chunk_text_smart content 512 64 true with
    | error e => rfl
    | ok chunks =>
      simp [List.map_map, Function.comp]

/-- The full id sequence of a run does not depend on the timestamp. -/
theorem runItems_ids_time :
    ∀ (docs : List (List Char × List Char)) (t1 t2 : List Char) (fc : Nat),
      (runItems t1 docs fc).map (·.id) = (runItems t2 docs fc).map (·.id) := by
  intro docs
  induction docs with
  | nil => intro t1 t2 fc; rfl
  | cons doc rest ih =>
    intro t1 t2 fc
    obtain ⟨fname, content⟩ := doc
    have hids := ingestDoc_ids t1 t2 fname content fc
    cases h1 : ingestDoc t1 fname content fc with
    | none =>
      cases h2 : ingestDoc t2 fname content fc with
      | none =>
        simp only [runItems, h1, h2]
        exact ih t1 t2 fc
      | some items2 => rw [h1, h2] at hids; simp at hids
    | some items1 =>
      cases h2 : ingestDoc t2 fname content fc with
      | none => rw [h1, h2] at hids; simp at hids
      | some items2 =>
        rw [h1, h2] at hids
        have hids' : items1.map (·.id) = items2.map (·.id) := by
          simpa using hids
        simp only [runItems, h1, h2]
        rw [List.map_append, List.map_append, hids', ih t1 t2 (fc + 1)]

/-- Claim C2 (amended). Re-ingesting the same document list with unchanged
content is idempotent: the second run (at any later timestamp) produces
exactly the same chunk identifiers as the first — the identifiers are
composed of (filename, chunk index, file position in the run) and carry
no timestamp — and, the committed chunks being keyed upserts, the index
after the second run holds exactly the same ids and the same entry count
as after the first (overwrite, no duplicate accumulation). -/
theorem c2_reingest_idempotent (t1 t2 : List Char)
    (docs : List (List Char × List Char)) (idx : IndexState) :
    (ingestRun t2 docs (ingestRun t1 docs idx).2).1 = (ingestRun t1 docs idx).1 ∧
    keysOf (ingestRun t2 docs (ingestRun t1 docs idx).2).2 =
      keysOf (ingestRun t1 docs idx).2 ∧
    (ingestRun t2 docs (ingestRun t1 docs idx).2).2.length =
      (ingestRun t1 docs idx).2.length := by
  have hids : (ingestRun t2 docs (ingestRun t1 docs idx).2).1 =
      (ingestRun t1 docs idx).1 := by
    unfold ingestRun
    rw [ingestAux_fst, ingestAux_fst]
    exact runItems_ids_time docs t2 t1 0
  have hsnd1 : (ingestRun t1 docs idx).2 = upsertAll idx (runItems t1 docs 0) := by
    unfold ingestRun
    rw [ingestAux_snd]
    simp
  have hsnd2 : (ingestRun t2 docs (ingestRun t1 docs idx).2).2 =
      upsertAll (ingestRun t1 docs idx).2 (runItems t2 docs 0) := by
    unfold ingestRun
    rw [ingestAux_snd]
    simp
  have hkeys : keysOf (ingestRun t2 docs (ingestRun t1 docs idx).2).2 =
      keysOf (ingestRun t1 docs idx).2 := by
    rw [hsnd2]
    apply keysOf_upsertAll_of_mem
    intro it hit
    have hidin : it.id ∈ (runItems t2 docs 0).map (·.id) :=
      List.mem_map.mpr ⟨it, hit, rfl⟩
    rw [runItems_ids_time docs t2 t1 0] at hidin
    rcases List.mem_map.mp hidin with ⟨it', hit', hid⟩
    rw [hsnd1, ← hid]
    exact mem_keysOf_upsertAll_self _ idx it' hit'
  refine ⟨hids, hkeys, ?_⟩
  have hlen : ∀ s : IndexState, s.length = (keysOf s).length := by
    intro s
    unfold keysOf
    rw [List.length_map]
  rw [hlen, hlen, hkeys]

/-- Claim C2 counterexample. The claim says chunk identifiers include the
strategy name and an ingestion epoch.  They do not: two runs of the
cited ingestion loop on the same document at two different ingestion
timestamps produce the identical identifier list
`["doc.txt_0_0"]` — `filename_chunkindex_filecount`, with no strategy
and no epoch component (an epoch component would make the two lists
differ, and would defeat the idempotent overwrite). -/
theorem c2_reingest_counterexample :
    (ingestRun "2024-01-01T00:00:00".data [("doc.txt".data, c2Content)] []).1 =
      (ingestRun "2025-06-15T12:00:00".data [("doc.txt".data, c2Content)] []).1 ∧
    (ingestRun "2024-01-01T00:00:00".data [("doc.txt".data, c2Content)] []).1 =
      ["doc.txt_0_0".data] ∧
    "2024-01-01T00:00:00".data ≠ "2025-06-15T12:00:00".data ∧
    mkDocId "doc.txt".data 0 0 = "doc.txt_0_0".data := by
  refine ⟨by decide, by decide, by decide, by decide⟩

/-! ## Short-text sentence chunking: claim C8 -/

theorem lastNS_cons (c : Char) (l : List Char) (h : l ≠ []) :
    lastNS (c :: l) = lastNS l := by
  cases l with
  | nil => exact absurd rfl h
  | cons d t => rfl

theorem lastNS_append (x y : List Char) (h : y ≠ []) :
    lastNS (x ++ y) = lastNS y := by
  induction x with
  | nil => rfl
  | cons c x' ih =>
    have hne : x' ++ y ≠ [] := by
      intro h0
      rcases List.append_eq_nil.mp h0 with ⟨-, h2⟩
      exact h h2
    rw [List.cons_append, lastNS_cons c _ hne, ih]

theorem lastNS_reverse (l : List Char) : lastNS l.reverse = headNS l := by
  cases l with
  | nil => rfl
  | cons c t =>
    rw [List.reverse_cons, lastNS_append t.reverse [c] (by simp)]
    rfl

theorem headNS_append_left (x y : List Char) (h : x ≠ []) :
    headNS (x ++ y) = headNS x := by
  cases x with
  | nil => exact absurd rfl h
  | cons c t => rfl

theorem noDbl_tail (c : Char) (l : List Char) (h : noDbl (c :: l) = true) :
    noDbl l = true := by
  cases l with
  | nil => rfl
  | cons d t =>
    rw [show noDbl (c :: d :: t) = (!(pyIsSpace c && pyIsSpace d) && noDbl (d :: t))
      from rfl, Bool.and_eq_true] at h
    exact h.2

theorem noDbl_head (c d : Char) (l : List Char) (h : noDbl (c :: d :: l) = true)
    (hc : pyIsSpace c = true) : pyIsSpace d = false := by
  rw [show noDbl (c :: d :: l) = (!(pyIsSpace c && pyIsSpace d) && noDbl (d :: l))
    from rfl, Bool.and_eq_true] at h
  have h1 := h.1
  rw [hc] at h1
  simpa using h1

theorem spacesOk_tail (c : Char) (l : List Char) (h : spacesOk (c :: l) = true) :
    spacesOk l = true := by
  unfold spacesOk at h ⊢
  rw [List.all_cons, Bool.and_eq_true] at h
  exact h.2

theorem spacesOk_head (c : Char) (l : List Char) (h : spacesOk (c :: l) = true)
    (hc : pyIsSpace c = true) : c = ' ' := by
  unfold spacesOk at h
  rw [List.all_cons, Bool.and_eq_true] at h
  have h1 := h.1
  rw [hc] at h1
  simpa using h1

theorem headNS_dropWhile (l : List Char) :
    headNS (l.dropWhile pyIsSpace) = true := by
  induction l with
  | nil => rfl
  | cons c t ih =>
    by_cases h : pyIsSpace c = true
    · rw [List.dropWhile_cons_of_pos h]; exact ih
    · rw [List.dropWhile_cons_of_neg h]
      simpa [headNS] using h

theorem dropWhile_id_of_headNS (l : List Char) (h : headNS l = true) :
    l.dropWhile pyIsSpace = l := by
  cases l with
  | nil => rfl
  | cons c t =>
    have : pyIsSpace c = false := by simpa [headNS] using h
    rw [List.dropWhile_cons_of_neg (by simp [this])]

theorem dropWhile_id_of_noDbl (c : Char) (l : List Char)
    (h : noDbl (c :: l) = true) (hc : pyIsSpace c = true) :
    l.dropWhile pyIsSpace = l := by
  cases l with
  | nil => rfl
  | cons d t =>
    exact dropWhile_id_of_headNS _ (by simpa [headNS] using noDbl_head c d t h hc)

theorem dropTrailing_headNS (l : List Char) (h : headNS l = true) :
    headNS (dropTrailing l) = true := by
  cases l with
  | nil => rfl
  | cons c t =>
    show headNS (match dropTrailing t with
      | [] => if pyIsSpace c then [] else [c]
      | r => c :: r) = true
    cases dropTrailing t with
    | nil =>
      by_cases hc : pyIsSpace c = true
      · simp [hc, headNS]
      · simp only [Bool.not_eq_true] at hc
        simp [hc, headNS]
    | cons r0 rt => exact h

theorem dropTrailing_lastNS (l : List Char) : lastNS (dropTrailing l) = true := by
  induction l with
  | nil => rfl
  | cons c t ih =>
    show lastNS (match dropTrailing t with
      | [] => if pyIsSpace c then [] else [c]
      | r => c :: r) = true
    cases hdt : dropTrailing t with
    | nil =>
      by_cases hc : pyIsSpace c = true
      · simp [hc, lastNS]
      · simp only [Bool.not_eq_true] at hc
        simp [hc, lastNS]
    | cons r0 rt =>
      rw [lastNS_cons c _ (by simp)]
      rw [hdt] at ih
      exact ih

theorem dropTrailing_id_of_lastNS (l : List Char) (h : lastNS l = true) :
    dropTrailing l = l := by
  induction l with
  | nil => rfl
  | cons c t ih =>
    show (match dropTrailing t with
      | [] => if pyIsSpace c then [] else [c]
      | r => c :: r) = c :: t
    cases t with
    | nil =>
      have hc : pyIsSpace c = false := by simpa [lastNS] using h
      simp [dropTrailing, hc]
    | cons d t' =>
      have ht : lastNS (d :: t') = true := by
        rw [← lastNS_cons c _ (by simp)]
        exact h
      rw [ih ht]

theorem pyStrip_headNS (l : List Char) : headNS (pyStrip l) = true :=
  dropTrailing_headNS _ (headNS_dropWhile l)

theorem pyStrip_lastNS (l : List Char) : lastNS (pyStrip l) = true :=
  dropTrailing_lastNS _

theorem pyStrip_id_of_ends (l : List Char) (h1 : headNS l = true)
    (h2 : lastNS l = true) : pyStrip l = l := by
  unfold pyStrip
  rw [dropWhile_id_of_headNS l h1, dropTrailing_id_of_lastNS l h2]

theorem collapseAux_cons (rep : Char) (b : Bool) (c : Char) (rest : List Char) :
    collapseAux rep b (c :: rest) =
      if pyIsSpace c = true then
        (if b = true then collapseAux rep true rest
         else rep :: collapseAux rep true rest)
      else c :: collapseAux rep false rest := rfl

theorem spacesOk_cons_intro (c : Char) (l : List Char)
    (hc : (!pyIsSpace c || c == ' ') = true) (hl : spacesOk l = true) :
    spacesOk (c :: l) = true := by
  unfold spacesOk at hl ⊢
  rw [List.all_cons, Bool.and_eq_true]
  exact ⟨hc, hl⟩

theorem collapseAux_spacesOk : ∀ (l : List Char) (b : Bool),
    spacesOk (collapseAux ' ' b l) = true := by
  intro l
  induction l with
  | nil => intro b; rfl
  | cons c t ih =>
    intro b
    rw [collapseAux_cons]
    by_cases hc : pyIsSpace c = true
    · rw [if_pos hc]
      by_cases hb : b = true
      · rw [if_pos hb]; exact ih true
      · rw [if_neg hb]
        exact spacesOk_cons_intro _ _ (by decide) (ih true)
    · rw [if_neg hc]
      simp only [Bool.not_eq_true] at hc
      exact spacesOk_cons_intro _ _ (by simp [hc]) (ih false)

theorem collapseAux_true_headNS : ∀ (l : List Char),
    headNS (collapseAux ' ' true l) = true := by
  intro l
  induction l with
  | nil => rfl
  | cons c t ih =>
    rw [collapseAux_cons]
    by_cases hc : pyIsSpace c = true
    · rw [if_pos hc, if_pos rfl]; exact ih
    · rw [if_neg hc]
      simp only [Bool.not_eq_true] at hc
      simp [headNS, hc]

theorem noDbl_cons_intro (c : Char) (l : List Char)
    (hl : noDbl l = true) (hhd : headNS l = true ∨ pyIsSpace c = false) :
    noDbl (c :: l) = true := by
  cases l with
  | nil => rfl
  | cons d t =>
    show (!(pyIsSpace c && pyIsSpace d) && noDbl (d :: t)) = true
    rw [Bool.and_eq_true]
    refine ⟨?_, hl⟩
    rcases hhd with hd | hc
    · have : pyIsSpace d = false := by simpa [headNS] using hd
      simp [this]
    · simp [hc]

theorem collapseAux_noDbl : ∀ (l : List Char) (b : Bool),
    noDbl (collapseAux ' ' b l) = true := by
  intro l
  induction l with
  | nil => intro b; rfl
  | cons c t ih =>
    intro b
    rw [collapseAux_cons]
    by_cases hc : pyIsSpace c = true
    · rw [if_pos hc]
      by_cases hb : b = true
      · rw [if_pos hb]; exact ih true
      · rw [if_neg hb]
        exact noDbl_cons_intro _ _ (ih true) (Or.inl (collapseAux_true_headNS t))
    · rw [if_neg hc]
      simp only [Bool.not_eq_true] at hc
      exact noDbl_cons_intro _ _ (ih false) (Or.inr hc)

theorem collapseAux_false_ne_nil (l : List Char) (h : l ≠ []) :
    collapseAux ' ' false l ≠ [] := by
  cases l with
  | nil => exact absurd rfl h
  | cons c t =>
    rw [collapseAux_cons]
    by_cases hc : pyIsSpace c = true
    · rw [if_pos hc, if_neg (by simp)]
      simp
    · rw [if_neg hc]
      simp

theorem collapseAux_true_ne_nil : ∀ (l : List Char), l ≠ [] → lastNS l = true →
    collapseAux ' ' true l ≠ [] := by
  intro l
  induction l with
  | nil => intro h _; exact absurd rfl h
  | cons c t ih =>
    intro _ hlast
    rw [collapseAux_cons]
    by_cases hc : pyIsSpace c = true
    · rw [if_pos hc, if_pos rfl]
      cases t with
      | nil => simp [lastNS, hc] at hlast
      | cons d t2 =>
        have ht : lastNS (d :: t2) = true := by
          rw [← lastNS_cons c _ (by simp)]; exact hlast
        exact ih (by simp) ht
    · rw [if_neg hc]
      simp

theorem collapseAux_lastNS : ∀ (l : List Char) (b : Bool), lastNS l = true →
    lastNS (collapseAux ' ' b l) = true := by
  intro l
  induction l with
  | nil => intro b _; rfl
  | cons c t ih =>
    intro b hlast
    rw [collapseAux_cons]
    cases t with
    | nil =>
      have hc : pyIsSpace c = false := by simpa [lastNS] using hlast
      rw [if_neg (by simp [hc])]
      simp [collapseAux, lastNS, hc]
    | cons d t2 =>
      have ht : lastNS (d :: t2) = true := by
        rw [← lastNS_cons c _ (by simp)]; exact hlast
      by_cases hc : pyIsSpace c = true
      · rw [if_pos hc]
        by_cases hb : b = true
        · rw [if_pos hb]; exact ih true ht
        · rw [if_neg hb]
          have hne := collapseAux_true_ne_nil (d :: t2) (by simp) ht
          rw [lastNS_cons ' ' _ hne]
          exact ih true ht
      · rw [if_neg hc]
        have hne := collapseAux_false_ne_nil (d :: t2) (by simp)
        rw [lastNS_cons c _ hne]
        exact ih false ht

theorem collapseAux_false_headNS (l : List Char) (h : headNS l = true) :
    headNS (collapseAux ' ' false l) = true := by
  cases l with
  | nil => rfl
  | cons c t =>
    have hc : pyIsSpace c = false := by simpa [headNS] using h
    simp [collapseAux, hc, headNS]

theorem wordsAux_cons_space (cur : List Char) (c : Char) (rest : List Char)
    (hc : pyIsSpace c = true) :
    wordsAux cur (c :: rest) =
      if cur = [] then wordsAux [] rest else cur.reverse :: wordsAux [] rest := by
  show (if pyIsSpace c = true then
      if cur = [] then wordsAux [] rest else cur.reverse :: wordsAux [] rest
    else wordsAux (c :: cur) rest) = _
  rw [if_pos hc]

theorem wordsAux_cons_nonspace (cur : List Char) (c : Char) (rest : List Char)
    (hc : pyIsSpace c = false) :
    wordsAux cur (c :: rest) = wordsAux (c :: cur) rest := by
  show (if pyIsSpace c = true then
      if cur = [] then wordsAux [] rest else cur.reverse :: wordsAux [] rest
    else wordsAux (c :: cur) rest) = _
  rw [if_neg (by simp [hc])]

theorem wordsAux_all_space : ∀ (l : List Char), l.all pyIsSpace = true →
    ∀ cur, wordsAux cur l = if cur = [] then [] else [cur.reverse] := by
  intro l
  induction l with
  | nil => intro _ cur; rfl
  | cons c t ih =>
    intro hall cur
    rw [List.all_cons, Bool.and_eq_true] at hall
    rw [wordsAux_cons_space cur c t hall.1, ih hall.2 []]
    by_cases hcur : cur = [] <;> simp [hcur]

theorem dropTrailing_eq_nil_iff : ∀ (l : List Char),
    dropTrailing l = [] ↔ l.all pyIsSpace = true := by
  intro l
  induction l with
  | nil => simp [dropTrailing]
  | cons c t ih =>
    show (match dropTrailing t with
      | [] => if pyIsSpace c then [] else [c]
      | r => c :: r) = [] ↔ _
    rw [List.all_cons, Bool.and_eq_true]
    cases hdt : dropTrailing t with
    | nil =>
      rw [hdt] at ih
      by_cases hc : pyIsSpace c = true
      · simp [hc, ih.mp rfl]
      · simp [hc, Bool.not_eq_true] at *
    | cons r0 rt =>
      rw [hdt] at ih
      constructor
      · intro h; simp at h
      · rintro ⟨-, hall⟩
        exact absurd (ih.mpr hall) (by simp)

theorem wordsAux_dropTrailing : ∀ (l : List Char) (cur : List Char),
    wordsAux cur (dropTrailing l) = wordsAux cur l := by
  intro l
  induction l with
  | nil => intro cur; rfl
  | cons c t ih =>
    intro cur
    show wordsAux cur (match dropTrailing t with
      | [] => if pyIsSpace c then [] else [c]
      | r => c :: r) = _
    cases hdt : dropTrailing t with
    | nil =>
      have hall : t.all pyIsSpace = true := (dropTrailing_eq_nil_iff t).mp hdt
      by_cases hc : pyIsSpace c = true
      · rw [if_pos hc, wordsAux_cons_space cur c t hc,
          wordsAux_all_space t hall []]
        by_cases hcur : cur = []
        · subst hcur; simp [wordsAux]
        · simp [hcur, wordsAux]
      · simp only [Bool.not_eq_true] at hc
        rw [if_neg (by simp [hc]), wordsAux_cons_nonspace cur c [] hc,
          wordsAux_cons_nonspace cur c t hc,
          wordsAux_all_space t hall (c :: cur)]
        simp [wordsAux]
    | cons r0 rt =>
      show wordsAux cur (c :: (r0 :: rt)) = wordsAux cur (c :: t)
      rw [← hdt]
      by_cases hc : pyIsSpace c = true
      · rw [wordsAux_cons_space cur c _ hc, wordsAux_cons_space cur c t hc,
          ih []]
      · simp only [Bool.not_eq_true] at hc
        rw [wordsAux_cons_nonspace cur c _ hc,
          wordsAux_cons_nonspace cur c t hc, ih (c :: cur)]

theorem wordsAux_dropWhile : ∀ (l : List Char),
    wordsAux [] (l.dropWhile pyIsSpace) = wordsAux [] l := by
  intro l
  induction l with
  | nil => rfl
  | cons c t ih =>
    by_cases hc : pyIsSpace c = true
    · rw [List.dropWhile_cons_of_pos hc, wordsAux_cons_space [] c t hc,
        if_pos rfl, ih]
    · rw [List.dropWhile_cons_of_neg (by simp [hc])]

theorem pyWords_pyStrip (l : List Char) : pyWords (pyStrip l) = pyWords l := by
  unfold pyWords pyStrip
  rw [wordsAux_dropTrailing, wordsAux_dropWhile]

theorem wordsAux_collapseAux : ∀ (l : List Char),
    (∀ cur, wordsAux cur (collapseAux ' ' false l) = wordsAux cur l) ∧
    wordsAux [] (collapseAux ' ' true l) = wordsAux [] l := by
  intro l
  induction l with
  | nil => exact ⟨fun cur => rfl, rfl⟩
  | cons c t ih =>
    by_cases hc : pyIsSpace c = true
    · constructor
      · intro cur
        rw [collapseAux_cons, if_pos hc, if_neg (by simp),
          wordsAux_cons_space cur ' ' _ (by decide),
          wordsAux_cons_space cur c t hc, ih.2]
      · rw [collapseAux_cons, if_pos hc, if_pos rfl, ih.2,
          wordsAux_cons_space [] c t hc, if_pos rfl]
    · simp only [Bool.not_eq_true] at hc
      constructor
      · intro cur
        rw [collapseAux_cons, if_neg (by simp [hc]),
          wordsAux_cons_nonspace cur c _ hc,
          wordsAux_cons_nonspace cur c t hc, ih.1 (c :: cur)]
      · rw [collapseAux_cons, if_neg (by simp [hc]),
          wordsAux_cons_nonspace [] c _ hc,
          wordsAux_cons_nonspace [] c t hc, ih.1 [c]]

theorem pyWords_collapse (l : List Char) :
    pyWords (collapseRuns ' ' l) = pyWords l := by
  unfold pyWords collapseRuns
  exact (wordsAux_collapseAux l).1 []

theorem wordsAux_append_space : ∀ (a : List Char) (cur b : List Char),
    wordsAux cur (a ++ ' ' :: b) = wordsAux cur a ++ wordsAux [] b := by
  intro a
  induction a with
  | nil =>
    intro cur b
    rw [List.nil_append, wordsAux_cons_space cur ' ' b (by decide)]
    by_cases hcur : cur = []
    · rw [if_pos hcur, hcur]; rfl
    · rw [if_neg hcur]
      show _ = (if cur = [] then [] else [cur.reverse]) ++ wordsAux [] b
      rw [if_neg hcur]
      rfl
  | cons c a' ih =>
    intro cur b
    rw [List.cons_append]
    by_cases hc : pyIsSpace c = true
    · rw [wordsAux_cons_space cur c _ hc, wordsAux_cons_space cur c a' hc, ih []]
      by_cases hcur : cur = []
      · rw [if_pos hcur, if_pos hcur]
      · rw [if_neg hcur, if_neg hcur]
        rfl
    · simp only [Bool.not_eq_true] at hc
      rw [wordsAux_cons_nonspace cur c _ hc,
        wordsAux_cons_nonspace cur c a' hc, ih (c :: cur)]

/-- Words of a space-joined list of sentences are the concatenation of
each sentence's words. -/
theorem pyWords_joinWith : ∀ (sents : List (List Char)),
    pyWords (joinWith ' ' sents) = (sents.map pyWords).flatten := by
  intro sents
  induction sents with
  | nil => rfl
  | cons x rest ih =>
    cases rest with
    | nil => simp [joinWith]
    | cons y t =>
      rw [joinWith_cons ' ' x (y :: t) (by simp)]
      unfold pyWords at ih ⊢
      rw [wordsAux_append_space x [] (joinWith ' ' (y :: t)), ih]
      simp

theorem endPunct_not_space (p : Char) (h : endPunct p = true) :
    pyIsSpace p = false := by
  unfold endPunct at h
  simp only [Bool.or_eq_true, decide_eq_true_eq] at h
  rcases h with (h | h) | h <;> subst h <;> decide

theorem upperAZ_not_space (u : Char) (h : isUpperAZ u = true) :
    pyIsSpace u = false := by
  by_contra hsp
  rw [Bool.not_eq_false] at hsp
  unfold pyIsSpace at hsp
  simp only [Bool.or_eq_true, decide_eq_true_eq] at hsp
  rcases hsp with ((((h1 | h1) | h1) | h1) | h1) | h1 <;> subst h1 <;>
    exact absurd h (by decide)

theorem sentAux_nil (fuel : Nat) (cur : List Char) :
    sentAux fuel cur [] = [cur.reverse] := by
  cases fuel <;> rfl

theorem sentAux_cons (fuel : Nat) (cur : List Char) (c : Char)
    (rest : List Char) :
    sentAux (fuel + 1) cur (c :: rest) =
      if pyIsSpace c && lookbehindPunct cur && sentLookahead rest then
        cur.reverse :: sentAux fuel [] (rest.dropWhile pyIsSpace)
      else sentAux fuel (c :: cur) rest := rfl

theorem sentAux_ne_nil : ∀ (fuel : Nat) (cur rest : List Char),
    sentAux fuel cur rest ≠ [] := by
  intro fuel
  induction fuel with
  | zero =>
    intro cur rest
    cases rest <;> simp [sentAux]
  | succ n ih =>
    intro cur rest
    cases rest with
    | nil => rw [sentAux_nil]; simp
    | cons c rest' =>
      rw [sentAux_cons]
      by_cases hcond : (pyIsSpace c && lookbehindPunct cur && sentLookahead rest') = true
      · rw [if_pos hcond]; simp
      · rw [if_neg hcond]; exact ih (c :: cur) rest'

/-- Structural specification of the sentence splitter on collapsed,
stripped text: joining the sentences with single spaces restores the
text, and every sentence is non-empty with non-space first and last
characters. -/
theorem sentAux_spec : ∀ (fuel : Nat) (rest cur : List Char),
    rest.length ≤ fuel →
    spacesOk rest = true → noDbl rest = true →
    (cur = [] → headNS rest = true) →
    headNS cur.reverse = true →
    lastNS (cur.reverse ++ rest) = true →
    (cur ≠ [] ∨ rest ≠ []) →
    joinWith ' ' (sentAux fuel cur rest) = cur.reverse ++ rest ∧
    ∀ s ∈ sentAux fuel cur rest, s ≠ [] ∧ headNS s = true ∧ lastNS s = true := by
  intro fuel
  induction fuel with
  | zero =>
    intro rest cur hlen _ _ _ hhead hlast hne
    have hrest : rest = [] := List.length_eq_zero.mp (Nat.le_zero.mp hlen)
    subst hrest
    rw [sentAux_nil]
    have hcur : cur ≠ [] := by
      rcases hne with h | h
      · exact h
      · exact absurd rfl h
    refine ⟨by simp [joinWith], ?_⟩
    intro s hs
    rw [List.mem_singleton] at hs
    subst hs
    exact ⟨by simp [hcur], hhead, by simpa using hlast⟩
  | succ n ih =>
    intro rest cur hlen hsp hnd hcur0 hhead hlast hne
    cases rest with
    | nil =>
      rw [sentAux_nil]
      have hcur : cur ≠ [] := by
        rcases hne with h | h
        · exact h
        · exact absurd rfl h
      refine ⟨by simp [joinWith], ?_⟩
      intro s hs
      rw [List.mem_singleton] at hs
      subst hs
      exact ⟨by simp [hcur], hhead, by simpa using hlast⟩
    | cons c rest' =>
      have hlen' : rest'.length ≤ n := by
        simpa using hlen
      rw [sentAux_cons]
      by_cases hcond : (pyIsSpace c && lookbehindPunct cur && sentLookahead rest') = true
      · rw [if_pos hcond]
        simp only [Bool.and_eq_true] at hcond
        obtain ⟨⟨hspc, hlb⟩, hla⟩ := hcond
        have hceq : c = ' ' := spacesOk_head c rest' hsp hspc
        obtain ⟨p, cur2, hpcur⟩ : ∃ p cur2, cur = p :: cur2 := by
          cases hcc : cur with
          | nil => rw [hcc] at hlb; simp [lookbehindPunct] at hlb
          | cons p cur2 => exact ⟨p, cur2, rfl⟩
        have hpunct : endPunct p = true := by
          rw [hpcur] at hlb
          simpa [lookbehindPunct] using hlb
        have hdw : rest'.dropWhile pyIsSpace = rest' :=
          dropWhile_id_of_noDbl c rest' hnd hspc
        have hui : ∃ u rest2, rest' = u :: rest2 ∧ isUpperAZ u = true := by
          unfold sentLookahead at hla
          rw [hdw] at hla
          cases hr : rest' with
          | nil => rw [hr] at hla; simp at hla
          | cons u rest2 =>
            rw [hr] at hla
            exact ⟨u, rest2, rfl, hla⟩
        obtain ⟨u, rest2, hru, hu⟩ := hui
        have hrest' : rest' ≠ [] := by rw [hru]; simp
        have hhr : headNS rest' = true := by
          rw [hru]
          simp [headNS, upperAZ_not_space u hu]
        have hlast' : lastNS rest' = true := by
          rw [lastNS_append _ _ (by simp)] at hlast
          rw [lastNS_cons c _ hrest'] at hlast
          exact hlast
        obtain ⟨hjoin', hgood'⟩ := ih rest' [] hlen' (spacesOk_tail c rest' hsp)
          (noDbl_tail c rest' hnd) (fun _ => hhr) (by rfl)
          (by simpa using hlast') (Or.inr hrest')
        rw [hdw]
        constructor
        · rw [joinWith_cons ' ' _ _ (sentAux_ne_nil n [] rest'), hjoin']
          simp [hceq]
        · intro s hs
          rcases List.mem_cons.mp hs with h | h
          · subst h
            refine ⟨by simp [hpcur], hhead, ?_⟩
            rw [lastNS_reverse, hpcur]
            simp [headNS, endPunct_not_space p hpunct]
          · exact hgood' s h
      · rw [if_neg hcond]
        have hheadNew : headNS ((c :: cur).reverse) = true := by
          rw [List.reverse_cons]
          cases hcc : cur with
          | nil =>
            have := hcur0 hcc
            simpa [headNS] using this
          | cons q cq =>
            rw [headNS_append_left _ _ (by simp [hcc])]
            rw [← hcc]
            exact hhead
        have hre : (c :: cur).reverse ++ rest' = cur.reverse ++ (c :: rest') := by
          rw [List.reverse_cons, List.append_assoc]
          rfl
        obtain ⟨hjoin', hgood'⟩ := ih rest' (c :: cur) hlen'
          (spacesOk_tail c rest' hsp) (noDbl_tail c rest' hnd)
          (fun h => absurd h (by simp)) hheadNew
          (by rw [hre]; exact hlast) (Or.inl (by simp))
        refine ⟨?_, hgood'⟩
        rw [hjoin', hre]

theorem sentLoop_nil (cs ov : Nat) (chunks cur : List (List Char)) (cw : Nat) :
    sentLoop cs ov chunks cur [] cw =
      if cur = [] then chunks else chunks ++ [joinWith ' ' cur] := rfl

theorem sentLoop_cons (cs ov : Nat) (chunks cur : List (List Char))
    (s : List Char) (rest : List (List Char)) (cw : Nat) :
    sentLoop cs ov chunks cur (s :: rest) cw =
      if pyStrip s = [] then sentLoop cs ov chunks cur rest cw
      else if cw + (pyWords (pyStrip s)).length > cs ∧ cur ≠ [] then
        sentLoop cs ov (chunks ++ [joinWith ' ' cur])
          ((overlapSeed ov cur.reverse 0 []).1 ++ [pyStrip s]) rest
          ((overlapSeed ov cur.reverse 0 []).2 + (pyWords (pyStrip s)).length)
      else sentLoop cs ov chunks (cur ++ [pyStrip s]) rest
        (cw + (pyWords (pyStrip s)).length) := rfl

/-- When every sentence fits (total word count within `chunk_size`), the
sentence loop emits a single chunk joining everything. -/
theorem sentLoop_all_fit :
    ∀ (sents chunks cur : List (List Char)) (cw cs ov : Nat),
      (∀ s ∈ sents, s ≠ [] ∧ pyStrip s = s) →
      cw + (sents.map (fun s => (pyWords s).length)).sum ≤ cs →
      (cur ≠ [] ∨ sents ≠ []) →
      sentLoop cs ov chunks cur sents cw =
        chunks ++ [joinWith ' ' (cur ++ sents)] := by
  intro sents
  induction sents with
  | nil =>
    intro chunks cur cw cs ov _ _ hne
    have hcur : cur ≠ [] := by
      rcases hne with h | h
      · exact h
      · exact absurd rfl h
    rw [sentLoop_nil, if_neg hcur]
    simp
  | cons s rest ih =>
    intro chunks cur cw cs ov hgood hsum hne
    obtain ⟨hs_ne, hs_strip⟩ := hgood s (by simp)
    rw [sentLoop_cons, if_neg (by rw [hs_strip]; exact hs_ne)]
    rw [List.map_cons, List.sum_cons] at hsum
    have hfits : ¬(cw + (pyWords (pyStrip s)).length > cs ∧ cur ≠ []) := by
      rw [hs_strip]
      rintro ⟨hgt, -⟩
      omega
    rw [if_neg hfits, hs_strip]
    rw [ih chunks (cur ++ [s]) (cw + (pyWords s).length) cs ov
      (fun s' h' => hgood s' (by simp [h'])) (by omega) (Or.inl (by simp))]
    rw [List.append_assoc]
    rfl

/-- Claim C8 (amended). For every text whose trimmed form is non-empty and
which has fewer than `chunk_size` words, sentence-preserving chunking
returns exactly one chunk, equal to the *whitespace-normalized* trimmed
input (every internal whitespace run collapsed to a single space — not
the trimmed input verbatim). -/
theorem c8_short_text_single_chunk (text : List Char) (chunkSize overlap : Nat)
    (hne : pyStrip text ≠ []) (hwc : (pyWords text).length < chunkSize) :
    chunk_text_smart text chunkSize overlap true =
      .ok [collapseRuns ' ' (pyStrip text)] := by
  have hhl : headNS (pyStrip text) = true := pyStrip_headNS text
  have hll : lastNS (pyStrip text) = true := pyStrip_lastNS text
  set t := collapseRuns ' ' (pyStrip text) with ht
  have htsp : spacesOk t = true := collapseAux_spacesOk _ false
  have htnd : noDbl t = true := collapseAux_noDbl _ false
  have hthead : headNS t = true := collapseAux_false_headNS _ hhl
  have htlast : lastNS t = true := collapseAux_lastNS _ false hll
  have htne : t ≠ [] := collapseAux_false_ne_nil _ hne
  obtain ⟨hjoin, hgood⟩ := sentAux_spec t.length t [] (le_refl _) htsp htnd
    (fun _ => hthead) (by rfl) (by simpa using htlast) (Or.inr htne)
  have hjoin' : joinWith ' ' (splitSentences t) = t := by
    unfold splitSentences
    rw [hjoin]
    simp
  have hgood' : ∀ s ∈ splitSentences t, s ≠ [] ∧ pyStrip s = s := by
    intro s hs
    obtain ⟨h1, h2, h3⟩ := hgood s hs
    exact ⟨h1, pyStrip_id_of_ends s h2 h3⟩
  have hwt : (pyWords t).length = (pyWords text).length := by
    rw [ht, pyWords_collapse, pyWords_pyStrip]
  have hsum : ((splitSentences t).map (fun s => (pyWords s).length)).sum =
      (pyWords t).length := by
    conv_rhs => rw [← hjoin']
    rw [pyWords_joinWith, List.length_flatten, List.map_map]
    rfl
  have hloop : sentLoop chunkSize overlap [] [] (splitSentences t) 0 =
      [joinWith ' ' (splitSentences t)] := by
    rw [sentLoop_all_fit (splitSentences t) [] [] 0 chunkSize overlap hgood'
      (by rw [hsum, hwt]; omega)
      (Or.inr (sentAux_ne_nil t.length [] t))]
    simp
  have hsent : chunk_by_sentences t chunkSize overlap = [t] := by
    show (if splitSentences t = [] then [t]
      else sentLoop chunkSize overlap [] [] (splitSentences t) 0) = [t]
    have hne2 : splitSentences t ≠ [] := sentAux_ne_nil t.length [] t
    rw [if_neg hne2, hloop, hjoin']
  show (if pyStrip text = [] then Except.ok []
    else if true = true then Except.ok (chunk_by_sentences t chunkSize overlap)
    else chunk_by_words t chunkSize overlap) = Except.ok [t]
  rw [if_neg hne, if_pos rfl, hsent]

/-- Witness for C8 (amended): a two-sentence 9-word text yields one
chunk equal to its whitespace-normalized trim. -/
theorem c8_short_text_single_chunk_witness :
    chunk_text_smart "  The cat sat. The dog ran away fast.  ".data 512 64 true =
      .ok [collapseRuns ' '
        (pyStrip "  The cat sat. The dog ran away fast.  ".data)] :=
  c8_short_text_single_chunk "  The cat sat. The dog ran away fast.  ".data
    512 64 (by decide) (by decide)

/-- Claim C8 counterexample. The claim says the single chunk equals the
trimmed input.  On `"a  b"` (double internal space) the trimmed input is
`"a  b"` itself, yet the chunker returns `["a b"]` — internal whitespace
runs are collapsed.  Moreover the non-empty whitespace-only text `" "`
yields no chunk at all rather than one. -/
theorem c8_short_text_counterexample :
    chunk_text_smart "a  b".data 512 64 true = .ok ["a b".data] ∧
    pyStrip "a  b".data = "a  b".data ∧
    "a b".data ≠ "a  b".data ∧
    (pyWords "a  b".data).length = 2 ∧
    chunk_text_smart " ".data 512 64 true = .ok [] ∧
    " ".data ≠ ([] : List Char) :=
  ⟨rfl, by decide, by decide, by decide, rfl, by decide⟩

end CompetitorAI
